import Mathlib

/-!
Verification of the Gist repository's chunking / retrieval / generation pipeline

Shallow embedding of the Python sources:

* `src/ingest/chunker.py`    — `normalize_text`, `detect_file_type`, `chunk_by_char`,
  `split_code_by_defs`, `chunk_file`
* `src/ingest/embeddings.py` — record-id derivation and the in-memory fallback
  path of `process_and_store`, `batchify`
* `src/retrieval/retriever.py` — `build_context`
* `src/generation/prompt.py` — `allowed_context_chars`
* `src/generation/llm.py`    — retry loop of `generate_with_openai_compatible`

Texts are modelled as `List Char` (Python `str`); Python integers as `Int`
(`Nat` where the source value is manifestly a non-negative index); loops that
are not structurally recursive are given an explicit fuel argument, with
`none` meaning the fuel ran out (for the chunker loop, a fuel of
`text.length + 1` is proved sufficient whenever the Python loop terminates).
-/

set_option autoImplicit false

/-- ASCII whitespace, as Python's `str.strip` / `\s` treat it
(space, tab, newline, carriage return, vertical tab, form feed). -/
def isPySpace (c : Char) : Bool :=
  c = ' ' || c = '\t' || c = '\n' || c = '\r' || c = '\x0b' || c = '\x0c'

/-- Python `str.strip()`: drop leading and trailing whitespace. -/
def pyStrip (s : List Char) : List Char :=
  ((s.dropWhile isPySpace).reverse.dropWhile isPySpace).reverse

/-- Python `str.rstrip()`: drop trailing whitespace. -/
def pyRstrip (s : List Char) : List Char :=
  (s.reverse.dropWhile isPySpace).reverse

/-- Python `str.split(sep)` for a one-character separator (never returns `[]`). -/
def splitOnChar (sep : Char) : List Char → List (List Char)
  | [] => [[]]
  | c :: cs =>
    match splitOnChar sep cs with
    | [] => [[]]
    | l :: ls => if c = sep then [] :: l :: ls else (c :: l) :: ls

/-- First pass of `normalize_text`: `text.replace("\r\n", "\n")`. -/
def replaceCRLF : List Char → List Char
  | '\r' :: '\n' :: rest => '\n' :: replaceCRLF rest
  | c :: rest => c :: replaceCRLF rest
  | [] => []

/-- Second pass of `normalize_text`: `text.replace("\r", "\n")`. -/
def replaceCR (s : List Char) : List Char :=
  s.map (fun c => if c = '\r' then '\n' else c)

/-- The blank-run collapsing loop of `normalize_text`: keep at most two
consecutive blank lines (`blank_run` is the running count of blanks). -/
def collapseBlanks : Nat → List (List Char) → List (List Char)
  | _, [] => []
  | run, line :: rest =>
    if (pyStrip line).isEmpty then
      if run + 1 > 2 then collapseBlanks (run + 1) rest
      else line :: collapseBlanks (run + 1) rest
    else line :: collapseBlanks 0 rest

/-- Model of `chunker.normalize_text`: normalize line endings, rstrip each line,
collapse runs of 3+ blank lines to 2, and strip the result. -/
def normalize_text (content : List Char) : List Char :=
  let t := replaceCR (replaceCRLF content)
  let lines := (splitOnChar '\n' t).map pyRstrip
  pyStrip (List.intercalate ['\n'] (collapseBlanks 0 lines))

/-- Model of `os.path.splitext(path)[1]`: the extension of the basename (from its last
dot, provided some earlier character of the basename is not a dot). -/
def splitextExt (path : List Char) : List Char :=
  let base := (splitOnChar '/' path).getLastD []
  let revBase := base.reverse
  let revExt := revBase.takeWhile (fun c => c ≠ '.')
  if revExt.length = revBase.length then []
  else
    let pre := (revBase.drop (revExt.length + 1)).reverse
    if pre.any (fun c => c ≠ '.') then '.' :: revExt.reverse else []

/-- Model of `chunker.detect_file_type`: classify a path by lower-cased extension. -/
def detect_file_type (path : List Char) : String :=
  let ext := (splitextExt path).map Char.toLower
  if ext = ".md".data ∨ ext = ".rst".data then "markdown"
  else if ext = ".py".data ∨ ext = ".js".data ∨ ext = ".ts".data ∨
          ext = ".java".data ∨ ext = ".go".data ∨ ext = ".rb".data then "code"
  else if ext = ".json".data ∨ ext = ".yaml".data ∨ ext = ".yml".data ∨
          ext = ".toml".data ∨ ext = ".ini".data then "config"
  else if ext = ".ipynb".data then "notebook"
  else "text"

/-- The `while start < text_len` loop of `chunk_by_char`, with explicit fuel
(`none` = fuel exhausted, i.e. the Python loop would still be running).
Each iteration takes the slice `text[start : start + chunkSize]`; it stops
after the slice that reaches the end of the text, else advances `start` to
`max 0 (start + chunkSize - overlap)` (`Int.toNat` is exactly that `max`). -/
def chunkLoop (text : List Char) (chunkSize : Nat) (overlap : Int) :
    Nat → Nat → Option (List (List Char))
  | 0, _ => none
  | fuel + 1, start =>
    if start < text.length then
      let chunk := (text.drop start).take chunkSize
      if text.length ≤ start + chunkSize then
        some [chunk]
      else
        match chunkLoop text chunkSize overlap fuel (((start : Int) + chunkSize - overlap).toNat) with
        | none => none
        | some rest => some (chunk :: rest)
    else
      some []

/-- Model of `chunker.chunk_by_char` with explicit fuel for its `while` loop.
Mirrors the source order: the empty-text early return comes before the
`chunk_size <= 0` validation; the returned chunks are stripped and the
blank ones dropped. -/
def chunkByCharFuel (fuel : Nat) (text : List Char) (chunk_size_tokens overlap_tokens : Int) :
    Option (Except String (List (List Char))) :=
  if text.isEmpty then some (Except.ok [])
  else if chunk_size_tokens * 4 ≤ 0 then
    some (Except.error "chunk_size_tokens must be positive")
  else
    (chunkLoop text (chunk_size_tokens * 4).toNat (overlap_tokens * 4) fuel 0).map
      (fun cs => Except.ok ((cs.map pyStrip).filter (fun c => !c.isEmpty)))

/-- Model of `chunker.chunk_by_char` at fuel `text.length + 1` (proved sufficient for
every terminating run of the Python loop); the `getD` default is reached
exactly when the Python loop runs forever. -/
def chunk_by_char (text : List Char) (chunk_size_tokens overlap_tokens : Int) :
    Except String (List (List Char)) :=
  (chunkByCharFuel (text.length + 1) text chunk_size_tokens overlap_tokens).getD
    (Except.error "loop does not terminate")

/-- The Python-regex test `re.match(r"^\s*(def |class )", line)`. -/
def starterPython (line : List Char) : Bool :=
  let t := line.dropWhile isPySpace
  "def ".data.isPrefixOf t || "class ".data.isPrefixOf t

/-- The Python-regex test `re.match(r"^\s*(function |class |const |let |var |export )", line)`. -/
def starterJs (line : List Char) : Bool :=
  let t := line.dropWhile isPySpace
  "function ".data.isPrefixOf t || "class ".data.isPrefixOf t ||
  "const ".data.isPrefixOf t || "let ".data.isPrefixOf t ||
  "var ".data.isPrefixOf t || "export ".data.isPrefixOf t

/-- The block-accumulating loop of `split_code_by_defs`: a starter line closes
the current block (when non-empty) and opens a new one. -/
def splitDefsGo (starter : List Char → Bool) (current : List (List Char)) :
    List (List Char) → List (List (List Char))
  | [] => if current.isEmpty then [] else [current]
  | l :: ls =>
    if starter l && !current.isEmpty then current :: splitDefsGo starter [l] ls
    else splitDefsGo starter (current ++ [l]) ls

/-- Model of `chunker.split_code_by_defs`: split code at heuristic function/class
starts; with at most one detected block, fall back to `chunk_by_char` at the
source's default parameters (1000 tokens, 200 overlap). -/
def split_code_by_defs (text : List Char) (lang : String) :
    Except String (List (List Char)) :=
  if text.isEmpty then Except.ok []
  else
    let lines := splitOnChar '\n' text
    let starter := if lang = "python" then starterPython else starterJs
    let blocks := splitDefsGo starter [] lines
    let blockTexts :=
      (blocks.map (fun b => pyStrip (List.intercalate ['\n'] b))).filter
        (fun t => !t.isEmpty)
    if blockTexts.length ≤ 1 then chunk_by_char text 1000 200
    else Except.ok blockTexts

/-- Scanner for `re.split(r"(?m)^#{1,6}\s+", text)` in `chunk_file`'s markdown
branch. At a line start (`atLS`), a run of 1–6 `#` followed by at least one
whitespace character is a header marker: the accumulated segment is emitted
and the marker plus its (greedy, maximal) whitespace run is consumed; a run
of 7+ `#` does not match. `acc` holds the current segment reversed. -/
def mdSplitGo : Bool → List Char → List Char → List (List Char)
  | _, acc, [] => [acc.reverse]
  | atLS, acc, c :: rest =>
    let r := ((c :: rest).takeWhile (fun x => x = '#')).length
    let ws := (((c :: rest).drop r).takeWhile isPySpace).length
    if _h : atLS = true ∧ 1 ≤ r ∧ r ≤ 6 ∧ 1 ≤ ws then
      acc.reverse ::
        mdSplitGo ((((c :: rest).drop r).take ws).getLastD ' ' = '\n') []
          (((c :: rest).drop r).drop ws)
    else
      mdSplitGo (c = '\n') (c :: acc) rest
termination_by _ _ input => input.length
decreasing_by
  · simp only [List.length_drop, List.length_cons]
    omega
  · simp

/-- Model of `re.split(r"(?m)^#{1,6}\s+", text)` (the string start counts as a line start). -/
def mdHeaderSplit (text : List Char) : List (List Char) :=
  mdSplitGo true [] text

/-- A chunk dict produced by `chunk_file`: `content` plus the metadata keys. -/
structure ChunkRec where
  content : List Char
  repo : List Char
  file_path : List Char
  file_type : String
  chunk_index : Nat
deriving DecidableEq, Repr

/-- Loop `for part in parts: chunks.extend(chunk_by_char(part, ...))`, propagating
the first raised error. -/
def chunkParts (cst ot : Int) : List (List Char) → Except String (List (List Char))
  | [] => Except.ok []
  | p :: ps =>
    match chunk_by_char p cst ot with
    | Except.error e => Except.error e
    | Except.ok cs =>
      match chunkParts cst ot ps with
      | Except.error e => Except.error e
      | Except.ok rest => Except.ok (cs ++ rest)

/-- The emission loop of `chunk_file`: `for i, chunk in enumerate(chunks)`,
skipping blank chunks, attaching metadata with `chunk_index = i`. -/
def emitRecords (repo file_path : List Char) (file_type : String) :
    Nat → List (List Char) → List ChunkRec
  | _, [] => []
  | i, c :: cs =>
    if (pyStrip c).isEmpty then emitRecords repo file_path file_type (i + 1) cs
    else { content := c, repo := repo, file_path := file_path,
           file_type := file_type, chunk_index := i } ::
         emitRecords repo file_path file_type (i + 1) cs

/-- The file-type dispatch of `chunk_file`, computing the chunk list from the
normalized text: markdown is split at headers then each (non-blank) part is
chunked; code is split at defs/classes then each block is chunked; notebooks
and everything else are chunked directly. -/
def chunkFileSelect (text file_path : List Char) (chunk_size_tokens overlap_tokens : Int) :
    Except String (List (List Char)) :=
  if detect_file_type file_path = "markdown" then
    chunkParts chunk_size_tokens overlap_tokens
      ((mdHeaderSplit text).filter (fun p => !(pyStrip p).isEmpty))
  else if detect_file_type file_path = "code" then
    let ext := (splitextExt file_path).map Char.toLower
    let lang := if ext = ".py".data then "python" else "js"
    match split_code_by_defs text lang with
    | Except.error e => Except.error e
    | Except.ok blocks => chunkParts chunk_size_tokens overlap_tokens blocks
  else if detect_file_type file_path = "notebook" then
    chunk_by_char text chunk_size_tokens overlap_tokens
  else
    chunk_by_char text chunk_size_tokens overlap_tokens

/-- Model of `chunker.chunk_file`: normalize, route on the detected file type
(markdown header split / code def split / direct), then emit chunk dicts
(the source defaults are 1000 chunk tokens and 200 overlap tokens). -/
def chunk_file (content repo file_path : List Char)
    (chunk_size_tokens overlap_tokens : Int) :
    Except String (List ChunkRec) :=
  match chunkFileSelect (normalize_text content) file_path chunk_size_tokens overlap_tokens with
  | Except.error e => Except.error e
  | Except.ok chunks =>
    Except.ok (emitRecords repo file_path (detect_file_type file_path) 0 chunks)

/-- A chunk metadata dict as read back by the indexer (`embeddings.py`):
each key may be absent. -/
structure Meta where
  repo : Option (List Char)
  file_path : Option (List Char)
  chunk_index : Option Int
deriving DecidableEq, Repr

/-- The empty dict `{}` used as the default metadata. -/
def emptyMeta : Meta := { repo := none, file_path := none, chunk_index := none }

/-- The deterministic id `f"{repo}::{file_path}::{chunk_index}"` built in
`process_and_store` (missing keys default to `""` / the enumeration index). -/
def recordId (idx : Nat) (m : Meta) : List Char :=
  m.repo.getD [] ++ "::".data ++ m.file_path.getD [] ++ "::".data ++
    (toString (m.chunk_index.getD (idx : Int))).data

/-- A chunk record as loaded from the chunker's JSONL by `process_and_store`. -/
structure JRec where
  content : Option (List Char)
  metadata : Option Meta
deriving DecidableEq, Repr

/-- The record-preparation loop of `process_and_store`
(`for idx, rec in enumerate(chunks)`): build `(id, document, metadata)`. -/
def prepTriples : Nat → List JRec → List (List Char × List Char × Meta)
  | _, [] => []
  | idx, rec :: rest =>
    let meta := rec.metadata.getD emptyMeta
    (recordId idx meta, rec.content.getD [], meta) :: prepTriples (idx + 1) rest

/-- Model of `embeddings.batchify`: group items into batches, flushing once a batch
reaches `batch_size`, plus a final partial batch. -/
def batchify {α : Type} (batch_size : Nat) (batch : List α) :
    List α → List (List α)
  | [] => if batch.isEmpty then [] else [batch]
  | x :: xs =>
    let b := batch ++ [x]
    if batch_size ≤ b.length then b :: batchify batch_size [] xs
    else batchify batch_size b xs

/-- One JSON line written to `embeddings_backup.jsonl` in fallback mode:
`{id, document, metadata, embedding}`. -/
structure BackupLine (E : Type) where
  id : List Char
  document : List Char
  metadata : Meta
  embedding : E
deriving Repr

/-- The fallback path of `process_and_store` (persistent store unavailable):
per batch, embed the documents (the Sentence-Transformers call is modelled as
an opaque per-text function `embed`) and append one backup line per record;
returns the appended lines and the returned count. -/
def processFallback {E : Type} (embed : List Char → E)
    (chunks : List JRec) (batch_size : Nat) : List (BackupLine E) × Nat :=
  let triples := prepTriples 0 chunks
  let batches := batchify batch_size [] triples
  batches.foldl
    (fun acc batch =>
      let embeddings := (batch.map (fun t => t.2.1)).map embed
      (acc.1 ++ (batch.zip embeddings).map
        (fun te => { id := te.1.1, document := te.1.2.1,
                     metadata := te.1.2.2, embedding := te.2 }),
       acc.2 + batch.length))
    ([], 0)

/-- A retrieval result dict as consumed by `build_context`
(`metadata` and `document` may be absent / `None`). -/
structure RetResult where
  metadata : Option Meta
  document : Option (List Char)
deriving DecidableEq, Repr

/-- The block rendered for the `i`-th result (1-based) in `build_context`:
`f"{header}\n{body}".strip()` with
`header = f"[CTX #{i}] {repo} :: {file_path} :: chunk {chunk_index}"`. -/
def renderBlock (i : Nat) (r : RetResult) : List Char :=
  let meta := r.metadata.getD emptyMeta
  let repo := meta.repo.getD []
  let fp := meta.file_path.getD []
  let ciStr := match meta.chunk_index with
    | none => "None".data
    | some n => (toString n).data
  let header := "[CTX #".data ++ (toString i).data ++ "] ".data ++ repo ++
    " :: ".data ++ fp ++ " :: chunk ".data ++ ciStr
  let body := r.document.getD []
  pyStrip (header ++ '\n' :: body)

/-- The accumulation loop of `build_context`: include a block only if
`total + len(block) + 2 <= max_chars`, else stop (the `break`). -/
def buildContextLoop (max_chars : Int) : Nat → Nat → List RetResult → List (List Char)
  | _, _, [] => []
  | i, total, r :: rest =>
    let block := renderBlock i r
    if max_chars < (total : Int) + block.length + 2 then []
    else block :: buildContextLoop max_chars (i + 1) (total + block.length + 2) rest

/-- Model of `retriever.build_context`: the selected blocks joined by `"\n\n---\n\n"`. -/
def build_context (results : List RetResult) (max_chars : Int := 8000) : List Char :=
  List.intercalate "\n\n---\n\n".data (buildContextLoop max_chars 1 0 results)

/-- Model of `prompt.allowed_context_chars`:
`max(1024, max(256, n_ctx - max_answer_tokens - prompt_overhead_tokens) * 4)`. -/
def allowed_context_chars (n_ctx max_answer_tokens : Int)
    (prompt_overhead_tokens : Int := 400) : Int :=
  max 1024 (max 256 (n_ctx - max_answer_tokens - prompt_overhead_tokens) * 4)

/-- The transient-status tuple `(429, 500, 502, 503, 504)` in `llm.py`. -/
def transientStatus (s : Nat) : Bool :=
  s = 429 || s = 500 || s = 502 || s = 503 || s = 504

/-- Model of `requests.Response.raise_for_status()`: raises exactly for 4xx / 5xx. -/
def raisesForStatus (s : Nat) : Bool :=
  400 ≤ s && s < 600

/-- Whether one attempt of the request loop in
`generate_with_openai_compatible` ends in the `except` handler: either the
POST itself raised (`Except.error`), or the status is in the transient tuple
(explicit `raise`), or `raise_for_status` raised. -/
def attemptFails (o : Except Unit Nat) : Bool :=
  match o with
  | Except.error _ => true
  | Except.ok s => transientStatus s || raisesForStatus s

/-- The `while True` retry loop of `generate_with_openai_compatible`:
`outcome n` is the n-th attempt's result (exception or HTTP status);
on failure, re-raise once `attempts >= 3`, else retry; returns
`(attempts used, final result)`. Fuel 3 is sufficient. -/
def retryLoop (outcome : Nat → Except Unit Nat) :
    Nat → Nat → Option (Nat × Except String Nat)
  | 0, _ => none
  | fuel + 1, attempts =>
    let a := attempts + 1
    if attemptFails (outcome a) then
      if 3 ≤ a then some (a, Except.error "request failed after attempts")
      else retryLoop outcome fuel a
    else
      some (a, Except.ok (match outcome a with | Except.ok s => s | Except.error _ => 0))

/-- The retry loop run from the initial state (`attempts = 0`). -/
def generateRetry (outcome : Nat → Except Unit Nat) : Nat × Except String Nat :=
  (retryLoop outcome 3 0).getD (0, Except.error "unreachable")

/-- The status payload of a non-raising response (`resp.json()` source of
truth for the success path; only the status matters for the retry logic). -/
def respStatus (o : Except Unit Nat) : Nat :=
  match o with
  | Except.ok s => s
  | Except.error _ => 0

/-- Reference description of the retry loop, following the spec's wording as
amended: every failed attempt — any exception or any HTTP-error status, not
only the transient ones — is retried, up to 3 attempts in total; the error
propagates only after the third failed attempt. -/
def generateRetryRef (outcome : Nat → Except Unit Nat) : Nat × Except String Nat :=
  if attemptFails (outcome 1) then
    if attemptFails (outcome 2) then
      if attemptFails (outcome 3) then (3, Except.error "request failed after attempts")
      else (3, Except.ok (respStatus (outcome 3)))
    else (2, Except.ok (respStatus (outcome 2)))
  else (1, Except.ok (respStatus (outcome 1)))

/-- C4: `allowed_context_chars` is non-increasing in `max_answer_tokens`, is
always at least 1024, and equals `max(256, n_ctx - max_answer_tokens -
overhead)` tokens at 4 chars/token under an absolute 1024-char floor. -/
theorem allowed_context_chars_monotone_floor (n_ctx a1 a2 overhead : Int)
    (h : a1 ≤ a2) :
    allowed_context_chars n_ctx a2 overhead ≤ allowed_context_chars n_ctx a1 overhead ∧
    1024 ≤ allowed_context_chars n_ctx a2 overhead ∧
    allowed_context_chars n_ctx a2 overhead =
      max 1024 (max 256 (n_ctx - a2 - overhead) * 4) := by
  refine ⟨?_, le_max_left _ _, rfl⟩
  unfold allowed_context_chars
  have h1 : max 256 (n_ctx - a2 - overhead) ≤ max 256 (n_ctx - a1 - overhead) :=
    max_le_max le_rfl (by omega)
  exact max_le_max le_rfl (by nlinarith)

/-- Witness for `allowed_context_chars_monotone_floor` at a concrete input. -/
theorem allowed_context_chars_monotone_floor_witness :
    (400 : Int) ≤ 512 ∧
    (allowed_context_chars 8192 512 400 ≤ allowed_context_chars 8192 400 400 ∧
     1024 ≤ allowed_context_chars 8192 512 400 ∧
     allowed_context_chars 8192 512 400 = max 1024 (max 256 (8192 - 512 - 400) * 4)) :=
  ⟨by decide, allowed_context_chars_monotone_floor 8192 400 512 400 (by decide)⟩

/-- C6 counterexample: with empty text and `chunk_size_tokens = 0 ≤ 0`,
`chunk_by_char` returns the empty list instead of failing — the emptiness
early-return precedes the validation check. -/
theorem chunk_by_char_empty_text_skips_validation :
    chunk_by_char [] 0 0 = Except.ok [] := by
  rfl

/-- C6 as amended: for every NON-empty text and non-positive
`chunk_size_tokens`, `chunk_by_char` raises the `ValueError`. -/
theorem chunk_by_char_rejects_nonpositive (text : List Char) (cst ot : Int)
    (hne : text ≠ []) (hc : cst ≤ 0) :
    chunk_by_char text cst ot =
      Except.error "chunk_size_tokens must be positive" := by
  unfold chunk_by_char chunkByCharFuel
  rw [if_neg (by simp [hne]), if_pos (by omega)]
  rfl

/-- Witness for `chunk_by_char_rejects_nonpositive` at a concrete input. -/
theorem chunk_by_char_rejects_nonpositive_witness :
    (['a'] : List Char) ≠ [] ∧ (0 : Int) ≤ 0 ∧
    chunk_by_char ['a'] 0 5 = Except.error "chunk_size_tokens must be positive" :=
  ⟨by decide, by decide, chunk_by_char_rejects_nonpositive ['a'] 0 5 (by decide) (by decide)⟩

/-- Helper for C5: on the 5-character text `"aaaaa"` with `chunk_size = 4`
and `overlap = 4`, the chunking loop never advances (`start` stays 0), so it
returns `none` at every fuel. -/
theorem chunkLoop_overlap_eq_diverges :
    ∀ fuel, chunkLoop ['a', 'a', 'a', 'a', 'a'] 4 4 fuel 0 = none := by
  intro fuel
  induction fuel with
  | zero => rfl
  | succ n ih =>
    simp only [chunkLoop]
    norm_num
    rw [ih]

/-- C5: `chunk_by_char` neither rejects nor clamps an overlap equal to the
chunk size — on the failing input `text = "aaaaa"`, `chunk_size_tokens = 1`,
`overlap_tokens = 1`, the loop runs forever (no fuel suffices). -/
theorem chunk_by_char_overlap_never_terminates :
    ∀ fuel, chunkByCharFuel fuel ['a', 'a', 'a', 'a', 'a'] 1 1 = none := by
  intro fuel
  simp only [chunkByCharFuel]
  norm_num
  exact chunkLoop_overlap_eq_diverges fuel

/-- C9 counterexample: a backend failing with the non-transient status 404
(neither 429 nor 5xx) is still retried — the loop uses all 3 attempts instead
of propagating the failure immediately after the first. -/
theorem generateRetry_retries_non_transient :
    generateRetry (fun _ => Except.ok 404) =
      (3, Except.error "request failed after attempts") ∧
    (generateRetry (fun _ => Except.ok 404)).1 ≠ 1 := by
  constructor
  · rfl
  · decide

/-- C9 as amended: the retry loop retries EVERY failed attempt (any raised
exception or any HTTP-error status, transient or not) up to 3 attempts in
total, returns at the first non-failing response, and propagates an error
only after the third failed attempt. -/
theorem generateRetry_eq_ref (outcome : Nat → Except Unit Nat) :
    generateRetry outcome = generateRetryRef outcome := by
  by_cases h1 : attemptFails (outcome 1) = true
  · by_cases h2 : attemptFails (outcome 2) = true
    · by_cases h3 : attemptFails (outcome 3) = true
      · simp [generateRetry, generateRetryRef, retryLoop, respStatus, h1, h2, h3]
      · simp [generateRetry, generateRetryRef, retryLoop, respStatus, h1, h2, h3]
    · simp [generateRetry, generateRetryRef, retryLoop, respStatus, h1, h2]
  · simp [generateRetry, generateRetryRef, retryLoop, respStatus, h1]


/-- The blocks `build_context` would render for a result list, with 1-based
numbering starting at `i` (the rank order of the input). -/
def renderSeq : Nat → List RetResult → List (List Char)
  | _, [] => []
  | i, r :: rs => renderBlock i r :: renderSeq (i + 1) rs

/-- The budget `build_context` accounts for a list of included blocks:
`len(block) + 2` per block. -/
def accountSum (bs : List (List Char)) : Nat :=
  (bs.map (fun b => b.length + 2)).sum

/-- A retrieval result with no metadata and no document, as permitted by
`build_context`'s defaulting (`r.get(...)`). -/
def emptyResult : RetResult := { metadata := none, document := none }

/-- C1 counterexample: with two metadata-less results and `max_chars = 58`,
both 27-character blocks pass the `total + len + 2 <= 58` accounting
(27 + 2 + 27 + 2 = 58), but the actual separator `"\n\n---\n\n"` is 7
characters, so the returned string has length 27 + 7 + 27 = 61 > 58. -/
theorem build_context_exceeds_max_chars :
    58 < (build_context [emptyResult, emptyResult] 58).length := by
  decide

/-- Length of a non-empty separator join: the blocks' lengths plus one
separator per gap. -/
theorem length_intercalate_of_ne_nil (sep : List Char) :
    ∀ (bs : List (List Char)), bs ≠ [] →
      (List.intercalate sep bs).length =
        (bs.map List.length).sum + sep.length * (bs.length - 1)
  | [], h => absurd rfl h
  | [b], _ => by simp [List.intercalate, List.intersperse]
  | b :: b2 :: t, _ => by
    have ih := length_intercalate_of_ne_nil sep (b2 :: t) (by simp)
    simp only [List.intercalate, List.intersperse_cons₂, List.flatten_cons,
      List.length_append, List.map, List.sum_cons, List.length_cons,
      Nat.add_sub_cancel, Nat.mul_succ] at ih ⊢
    omega

/-- The `accountSum` of a block list, split into the blocks' total length and
the 2-per-block overhead. -/
theorem accountSum_eq (bs : List (List Char)) :
    accountSum bs = (bs.map List.length).sum + 2 * bs.length := by
  induction bs with
  | nil => simp [accountSum]
  | cons b t ih => simp [accountSum] at ih ⊢; omega

/-- Behaviour of the accumulation loop of `build_context`: it includes the
rendered blocks of an initial prefix of the results, in order and each
all-or-nothing; if any block is included, the running `len + 2` accounting
stays within `max_chars`; and it stops exactly at the first block whose
accounted size would overflow. -/
theorem buildContextLoop_spec (mc : Int) :
    ∀ (rs : List RetResult) (i total : Nat),
      ∃ n, n ≤ rs.length ∧
        buildContextLoop mc i total rs = renderSeq i (rs.take n) ∧
        (n = 0 ∨ ((total : Int) + accountSum (renderSeq i (rs.take n)) ≤ mc)) ∧
        (∀ hn : n < rs.length,
          mc < (total : Int) + accountSum (renderSeq i (rs.take n)) +
            (renderBlock (i + n) (rs.get ⟨n, hn⟩)).length + 2) := by
  intro rs
  induction rs with
  | nil =>
    intro i total
    exact ⟨0, Nat.le_refl 0, rfl, Or.inl rfl, fun hn => absurd hn (by simp)⟩
  | cons r rest ih =>
    intro i total
    by_cases hb : mc < (total : Int) + (renderBlock i r).length + 2
    · refine ⟨0, Nat.zero_le _, ?_, Or.inl rfl, ?_⟩
      · simp [buildContextLoop, hb, renderSeq]
      · intro hn
        simpa [renderSeq, accountSum] using hb
    · obtain ⟨n, hle, heq, hbud, hstop⟩ := ih (i + 1) (total + (renderBlock i r).length + 2)
      refine ⟨n + 1, Nat.succ_le_succ hle, ?_, Or.inr ?_, ?_⟩
      · simpa [buildContextLoop, hb, renderSeq] using heq
      · have hacc : accountSum (renderSeq i ((r :: rest).take (n + 1))) =
            (renderBlock i r).length + 2 + accountSum (renderSeq (i + 1) (rest.take n)) := by
          simp [renderSeq, accountSum]
        rcases hbud with h0 | hlt
        · subst h0
          push_neg at hb
          rw [hacc]
          simp only [List.take_zero, renderSeq, accountSum, List.map_nil, List.sum_nil]
          push_cast
          omega
        · rw [hacc]
          push_cast at hlt ⊢
          omega
      · intro hn
        have hn' : n < rest.length := Nat.lt_of_succ_lt_succ hn
        have hs := hstop hn'
        have hacc : accountSum (renderSeq i ((r :: rest).take (n + 1))) =
            (renderBlock i r).length + 2 + accountSum (renderSeq (i + 1) (rest.take n)) := by
          simp [renderSeq, accountSum]
        rw [hacc]
        have hget : (r :: rest).get ⟨n + 1, hn⟩ = rest.get ⟨n, hn'⟩ := rfl
        rw [hget]
        have hidx : i + 1 + n = i + (n + 1) := by omega
        rw [← hidx]
        push_cast at hs ⊢
        omega

/-- C1 as amended: `build_context` returns the rendered blocks of a prefix of
the results in rank order, joined by `"\n\n---\n\n"`, never including a block
partially, and stops — excluding the overflowing block — as soon as
`total + len(block) + 2` would exceed `max_chars`. The guaranteed bound is on
this accounting (the sum of `len + 2` over included blocks is at most
`max_chars`); hence the returned string's length is at most
`max_chars + 5*k - 7` for `k ≥ 1` included blocks. The bare `max_chars`
length bound does not hold, because the separator is 7 characters while only
2 are budgeted per block. -/
theorem build_context_budget (results : List RetResult) (mc : Int) :
    ∃ n, n ≤ results.length ∧
      build_context results mc =
        List.intercalate "\n\n---\n\n".data (renderSeq 1 (results.take n)) ∧
      (renderSeq 1 (results.take n) = [] ∨
        (accountSum (renderSeq 1 (results.take n)) : Int) ≤ mc) ∧
      (∀ hn : n < results.length,
        mc < (accountSum (renderSeq 1 (results.take n)) : Int) +
          (renderBlock (1 + n) (results.get ⟨n, hn⟩)).length + 2) ∧
      (renderSeq 1 (results.take n) ≠ [] →
        ((build_context results mc).length : Int) + 7 ≤
          mc + 5 * (renderSeq 1 (results.take n)).length) := by
  obtain ⟨n, hle, heq, hbud, hstop⟩ := buildContextLoop_spec mc results 1 0
  refine ⟨n, hle, ?_, ?_, ?_, ?_⟩
  · unfold build_context; rw [heq]
  · rcases hbud with h0 | hlt
    · subst h0; exact Or.inl (by simp [renderSeq])
    · exact Or.inr (by simpa using hlt)
  · intro hn
    simpa using hstop hn
  · intro hne
    have hlt : (accountSum (renderSeq 1 (results.take n)) : Int) ≤ mc := by
      rcases hbud with h0 | hlt
      · subst h0; simp [renderSeq] at hne
      · simpa using hlt
    have hlen : (build_context results mc).length =
        ((renderSeq 1 (results.take n)).map List.length).sum +
          7 * ((renderSeq 1 (results.take n)).length - 1) := by
      unfold build_context
      rw [heq]
      simpa using length_intercalate_of_ne_nil "\n\n---\n\n".data _ hne
    have hacc := accountSum_eq (renderSeq 1 (results.take n))
    have hk : 1 ≤ (renderSeq 1 (results.take n)).length :=
      List.length_pos.mpr hne
    rw [hlen]
    rw [hacc] at hlt
    push_cast at hlt ⊢
    omega

/-- Flattening the batches gives back the input items: `batchify` partitions
its input in order. -/
theorem batchify_flatten {α : Type} (bs : Nat) :
    ∀ (l acc : List α), (batchify bs acc l).flatten = acc ++ l := by
  intro l
  induction l with
  | nil =>
    intro acc
    by_cases h : acc.isEmpty
    · simp [batchify, h, List.isEmpty_iff.mp h]
    · simp [batchify, h]
  | cons x xs ih =>
    intro acc
    by_cases h : bs ≤ acc.length + 1
    · simp [batchify, h, ih]
    · simp [batchify, h, ih]

/-- The backup line written for a prepared `(id, document, metadata)` triple. -/
def mkLine {E : Type} (embed : List Char → E) (t : List Char × List Char × Meta) :
    BackupLine E :=
  { id := t.1, document := t.2.1, metadata := t.2.2, embedding := embed t.2.1 }

/-- Zipping a list with its own elementwise image pairs each element with its
image (the `zip(batch_ids, batch_docs, batch_metas, embeddings)` shape). -/
theorem zip_map_self {α β : Type} (k : α → β) :
    ∀ l : List α, l.zip (l.map k) = l.map (fun x => (x, k x)) := by
  intro l
  induction l with
  | nil => rfl
  | cons x xs ih => simp [ih]

/-- The per-batch fold of the fallback path, accumulated over all batches:
it appends one backup line per item of the flattened batches, and adds the
batch sizes to the running count. -/
theorem processFallback_fold {E : Type} (embed : List Char → E) :
    ∀ (batches : List (List (List Char × List Char × Meta)))
      (p : List (BackupLine E) × Nat),
      batches.foldl
        (fun acc batch =>
          (acc.1 ++ (batch.zip ((batch.map (fun tr => tr.2.1)).map embed)).map
            (fun te => { id := te.1.1, document := te.1.2.1,
                         metadata := te.1.2.2, embedding := te.2 }),
           acc.2 + batch.length)) p =
      (p.1 ++ batches.flatten.map (mkLine embed), p.2 + batches.flatten.length) := by
  intro batches
  induction batches with
  | nil => intro p; simp
  | cons b bs ih =>
    intro p
    rw [List.foldl_cons, ih]
    dsimp only
    have hline : (b.zip ((b.map (fun tr => tr.2.1)).map embed)).map
        (fun te => ({ id := te.1.1, document := te.1.2.1,
                      metadata := te.1.2.2, embedding := te.2 } : BackupLine E)) =
        b.map (mkLine embed) := by
      rw [List.map_map, zip_map_self, List.map_map]
      rfl
    rw [hline]
    simp only [List.flatten_cons, List.map_append, List.length_append, Prod.mk.injEq]
    exact ⟨by rw [List.append_assoc], by omega⟩

/-- Record preparation is one-to-one with the input chunk records. -/
theorem prepTriples_length : ∀ (i : Nat) (l : List JRec),
    (prepTriples i l).length = l.length := by
  intro i l
  induction l generalizing i with
  | nil => rfl
  | cons r rs ih => simp [prepTriples, ih]

/-- C8: in fallback mode, every input chunk record is appended exactly once —
in input order, as an `{id, document, metadata, embedding}` line — to the
backup log, and the returned count equals the number of input chunk
records. -/
theorem processFallback_complete {E : Type} (embed : List Char → E)
    (chunks : List JRec) (batch_size : Nat) :
    (processFallback embed chunks batch_size).2 = chunks.length ∧
    (processFallback embed chunks batch_size).1 =
      (prepTriples 0 chunks).map (mkLine embed) := by
  unfold processFallback
  rw [processFallback_fold, batchify_flatten]
  simp [prepTriples_length]

/-- The JSONL round trip from a chunker record to an indexer record: all
metadata keys are present. -/
def chunkRecToJRec (c : ChunkRec) : JRec :=
  { content := some c.content,
    metadata := some { repo := some c.repo, file_path := some c.file_path,
                       chunk_index := some (c.chunk_index : Int) } }

/-- C3: the persisted id of a record whose metadata carries `repo`,
`file_path` and `chunk_index` is exactly `repo::file_path::chunk_index`
(literal `::` separator), and chunking the same content twice under the same
repo and path yields identical `(file_path, chunk_index)` sequences and hence
identical derived ids. -/
theorem chunk_identity_deterministic (content repo fp : List Char) (cst ot : Int)
    (out1 out2 : List ChunkRec)
    (h1 : chunk_file content repo fp cst ot = Except.ok out1)
    (h2 : chunk_file content repo fp cst ot = Except.ok out2) :
    out1.map (fun c => (c.file_path, c.chunk_index)) =
      out2.map (fun c => (c.file_path, c.chunk_index)) ∧
    (prepTriples 0 (out1.map chunkRecToJRec)).map (fun t => t.1) =
      (prepTriples 0 (out2.map chunkRecToJRec)).map (fun t => t.1) ∧
    (∀ (idx : Nat) (m : Meta) (r p : List Char) (ci : Int),
      m.repo = some r → m.file_path = some p → m.chunk_index = some ci →
      recordId idx m = r ++ "::".data ++ p ++ "::".data ++ (toString ci).data) := by
  have hout : out1 = out2 := by
    rw [h1] at h2
    exact Except.ok.inj h2
  subst hout
  refine ⟨rfl, rfl, ?_⟩
  intro idx m r p ci hr hp hc
  simp [recordId, hr, hp, hc]

/-- The first element surviving `dropWhile` fails the predicate. -/
theorem dropWhile_head_false {α : Type} (p : α → Bool) :
    ∀ (l : List α) (c : α) (cs : List α), l.dropWhile p = c :: cs → p c = false := by
  intro l
  induction l with
  | nil => intro c cs h; cases h
  | cons x xs ih =>
    intro c cs h
    rw [List.dropWhile_cons] at h
    by_cases hx : p x = true
    · rw [if_pos hx] at h
      exact ih c cs h
    · rw [if_neg hx] at h
      cases h
      exact Bool.eq_false_iff.mpr hx

/-- `dropWhile` is the identity on a list whose head fails the predicate. -/
theorem dropWhile_eq_self_of_head {α : Type} (p : α → Bool) (l : List α) (c : α)
    (hh : l.head? = some c) (hc : p c = false) : l.dropWhile p = l := by
  cases l with
  | nil => cases hh
  | cons x xs =>
    cases hh
    rw [List.dropWhile_cons, if_neg (by simp [hc])]

/-- `dropWhile` keeps the last element of the list (when anything survives). -/
theorem getLast?_dropWhile {α : Type} (p : α → Bool) :
    ∀ (l : List α), l.dropWhile p ≠ [] → (l.dropWhile p).getLast? = l.getLast? := by
  intro l
  induction l with
  | nil => intro h; simp at h
  | cons x xs ih =>
    intro h
    by_cases hx : p x = true
    · rw [List.dropWhile_cons, if_pos hx] at h ⊢
      have hxs : xs ≠ [] := by
        intro he
        subst he
        simp [List.dropWhile] at h
      rw [ih h]
      cases xs with
      | nil => exact absurd rfl hxs
      | cons y ys => simp
    · rw [List.dropWhile_cons, if_neg hx]

/-- Python's `strip` is idempotent: a stripped string strips to itself. -/
theorem pyStrip_idem (s : List Char) : pyStrip (pyStrip s) = pyStrip s := by
  rcases hcase : (s.dropWhile isPySpace).reverse.dropWhile isPySpace with _ | ⟨c, cs⟩
  · unfold pyStrip
    rw [hcase]
    rfl
  · have hne : (s.dropWhile isPySpace).reverse.dropWhile isPySpace ≠ [] := by
      rw [hcase]; exact List.cons_ne_nil c cs
    have f1 : isPySpace c = false :=
      dropWhile_head_false isPySpace _ c cs hcase
    have f2 : ((s.dropWhile isPySpace).reverse.dropWhile isPySpace).getLast? =
        (s.dropWhile isPySpace).reverse.getLast? :=
      getLast?_dropWhile isPySpace _ hne
    rcases hacase : s.dropWhile isPySpace with _ | ⟨d, ds⟩
    · rw [hacase] at hcase
      simp [List.dropWhile] at hcase
    · have f3 : isPySpace d = false :=
        dropWhile_head_false isPySpace s d ds hacase
      have f4 : ((s.dropWhile isPySpace).reverse.dropWhile isPySpace).getLast? = some d := by
        rw [f2, List.getLast?_reverse, hacase]
        rfl
      show pyStrip (((s.dropWhile isPySpace).reverse.dropWhile isPySpace).reverse) = _
      unfold pyStrip
      have step1 : (((s.dropWhile isPySpace).reverse.dropWhile isPySpace).reverse).dropWhile isPySpace =
          ((s.dropWhile isPySpace).reverse.dropWhile isPySpace).reverse := by
        apply dropWhile_eq_self_of_head isPySpace _ d
        · rw [List.head?_reverse]
          exact f4
        · exact f3
      rw [step1, List.reverse_reverse]
      have step2 : ((s.dropWhile isPySpace).reverse.dropWhile isPySpace).dropWhile isPySpace =
          (s.dropWhile isPySpace).reverse.dropWhile isPySpace := by
        apply dropWhile_eq_self_of_head isPySpace _ c
        · rw [hcase]; rfl
        · exact f1
      rw [step2]

/-- Dropping a prefix never lengthens a list. -/
theorem dropWhile_length_le {α : Type} (p : α → Bool) :
    ∀ l : List α, (l.dropWhile p).length ≤ l.length := by
  intro l
  induction l with
  | nil => exact Nat.le_refl 0
  | cons x xs ih =>
    rw [List.dropWhile_cons]
    by_cases hx : p x = true
    · rw [if_pos hx]
      exact Nat.le_succ_of_le ih
    · rw [if_neg hx]

/-- Stripping never lengthens a string. -/
theorem pyStrip_length_le (s : List Char) : (pyStrip s).length ≤ s.length := by
  unfold pyStrip
  simp only [List.length_reverse]
  exact le_trans (dropWhile_length_le _ _)
    (by simpa using dropWhile_length_le isPySpace s)

/-- Every slice the chunking loop takes has at most `chunkSize` characters. -/
theorem chunkLoop_length_le (text : List Char) (cs : Nat) (ov : Int) :
    ∀ (fuel start : Nat) (chunks : List (List Char)),
      chunkLoop text cs ov fuel start = some chunks →
      ∀ c ∈ chunks, c.length ≤ cs := by
  intro fuel
  induction fuel with
  | zero => intro start chunks h; cases h
  | succ n ih =>
    intro start chunks h
    rw [chunkLoop] at h
    by_cases hlt : start < text.length
    · rw [if_pos hlt] at h
      by_cases hend : text.length ≤ start + cs
      · rw [if_pos hend] at h
        cases h
        intro c hc
        rcases List.mem_singleton.mp hc with rfl
        exact le_trans (List.length_take_le _ _) (le_refl _)
      · rw [if_neg hend] at h
        rcases hrec : chunkLoop text cs ov n (((start : Int) + cs - ov).toNat) with _ | rest
        · rw [hrec] at h; cases h
        · rw [hrec] at h
          cases h
          intro c hc
          rcases List.mem_cons.mp hc with rfl | hmem
          · exact le_trans (List.length_take_le _ _) (le_refl _)
          · exact ih _ rest hrec c hmem
    · rw [if_neg hlt] at h
      cases h
      intro c hc
      cases hc

/-- With `overlap < chunkSize` the loop advances by at least one character
per iteration, so a fuel exceeding the remaining length suffices. -/
theorem chunkLoop_isSome (text : List Char) (cs : Nat) (ov : Int)
    (hprog : ov < (cs : Int)) :
    ∀ (fuel start : Nat), text.length - start < fuel →
      (chunkLoop text cs ov fuel start).isSome := by
  intro fuel
  induction fuel with
  | zero => intro start h; omega
  | succ n ih =>
    intro start hfuel
    rw [chunkLoop]
    by_cases hlt : start < text.length
    · rw [if_pos hlt]
      by_cases hend : text.length ≤ start + cs
      · rw [if_pos hend]; rfl
      · rw [if_neg hend]
        have hrec := ih (((start : Int) + cs - ov).toNat) (by omega)
        rcases hsome : chunkLoop text cs ov n (((start : Int) + cs - ov).toNat) with _ | rest
        · rw [hsome] at hrec; cases hrec
        · rfl
    · rw [if_neg hlt]; rfl

/-- With `0 ≤ overlap < chunkSize` and a non-empty remaining text, the loop
succeeds and its final slice runs exactly to the end of the text: the last
chunk is `text[s:]` for a start `s` with `s < len ≤ s + chunkSize`. -/
theorem chunkLoop_last (text : List Char) (cs : Nat) (ov : Int)
    (hov0 : 0 ≤ ov) (hprog : ov < (cs : Int)) :
    ∀ (fuel start : Nat), text.length - start < fuel → start < text.length →
      ∃ (chunks : List (List Char)) (s : Nat),
        chunkLoop text cs ov fuel start = some chunks ∧
        s < text.length ∧ text.length ≤ s + cs ∧
        chunks.getLast? = some (text.drop s) := by
  intro fuel
  induction fuel with
  | zero => intro start h; omega
  | succ n ih =>
    intro start hfuel hstart
    rw [chunkLoop, if_pos hstart]
    by_cases hend : text.length ≤ start + cs
    · refine ⟨[(text.drop start).take cs], start, by rw [if_pos hend], hstart, hend, ?_⟩
      rw [List.take_of_length_le (by simp; omega)]
      rfl
    · rw [if_neg hend]
      have hsn : ((start : Int) + cs - ov).toNat < text.length := by omega
      have hrec := ih (((start : Int) + cs - ov).toNat) (by omega) hsn
      rcases hrec with ⟨chunks', s, hloop, hs1, hs2, hlast⟩
      rw [hloop]
      refine ⟨(text.drop start).take cs :: chunks', s, rfl, hs1, hs2, ?_⟩
      have hne : chunks' ≠ [] := by
        intro he; subst he; cases hlast
      cases chunks' with
      | nil => exact absurd rfl hne
      | cons y ys => rw [List.getLast?_cons_cons]; exact hlast

/-- Every chunk returned by `chunk_by_char` is within the character budget
`chunk_size_tokens * 4`, already stripped, and non-empty. -/
theorem chunk_by_char_mem (text : List Char) (cst ot : Int) (cs : List (List Char))
    (h : chunk_by_char text cst ot = Except.ok cs) :
    ∀ c ∈ cs, (c.length : Int) ≤ cst * 4 ∧ pyStrip c = c ∧ c ≠ [] := by
  unfold chunk_by_char chunkByCharFuel at h
  by_cases hemp : text.isEmpty
  · rw [if_pos hemp] at h
    have : cs = [] := (Except.ok.inj h).symm
    subst this
    intro c hc
    cases hc
  · rw [if_neg hemp] at h
    by_cases hcz : cst * 4 ≤ 0
    · rw [if_pos hcz] at h
      cases h
    · rw [if_neg hcz] at h
      rcases hloop : chunkLoop text (cst * 4).toNat (ot * 4) (text.length + 1) 0 with _ | raw
      · rw [hloop] at h
        cases h
      · rw [hloop] at h
        have hcs : cs = (raw.map pyStrip).filter (fun c => !c.isEmpty) :=
          (Except.ok.inj h).symm
        subst hcs
        intro c hc
        rw [List.mem_filter] at hc
        obtain ⟨hcm, hcne⟩ := hc
        rw [List.mem_map] at hcm
        obtain ⟨rc, hrc, rfl⟩ := hcm
        have h1 : rc.length ≤ (cst * 4).toNat :=
          chunkLoop_length_le text _ _ _ _ raw hloop rc hrc
        have h2 : (pyStrip rc).length ≤ rc.length := pyStrip_length_le rc
        refine ⟨by omega, pyStrip_idem rc, by simpa using hcne⟩

/-- Under the spec's parameter precondition, `chunk_by_char` returns
normally. -/
theorem chunk_by_char_isOk (text : List Char) (cst ot : Int)
    (hc : 0 < cst) (ho : ot < cst) :
    ∃ cs, chunk_by_char text cst ot = Except.ok cs := by
  unfold chunk_by_char chunkByCharFuel
  by_cases hemp : text.isEmpty
  · exact ⟨[], by rw [if_pos hemp]; rfl⟩
  · rw [if_neg hemp, if_neg (by omega : ¬ cst * 4 ≤ 0)]
    have hprog : (ot * 4 : Int) < (((cst * 4).toNat : Nat) : Int) := by omega
    have hsome := chunkLoop_isSome text (cst * 4).toNat (ot * 4) hprog
      (text.length + 1) 0 (by omega)
    rcases hloop : chunkLoop text (cst * 4).toNat (ot * 4) (text.length + 1) 0 with _ | raw
    · rw [hloop] at hsome
      cases hsome
    · exact ⟨_, rfl⟩

/-- The per-part accumulation inherits `chunk_by_char`'s chunk guarantees. -/
theorem chunkParts_mem (cst ot : Int) :
    ∀ (parts : List (List Char)) (cs : List (List Char)),
      chunkParts cst ot parts = Except.ok cs →
      ∀ c ∈ cs, (c.length : Int) ≤ cst * 4 ∧ pyStrip c = c ∧ c ≠ [] := by
  intro parts
  induction parts with
  | nil =>
    intro cs h
    have : cs = [] := (Except.ok.inj h).symm
    subst this
    intro c hc
    cases hc
  | cons p ps ih =>
    intro cs h
    unfold chunkParts at h
    rcases hcb : chunk_by_char p cst ot with e | cs1
    · rw [hcb] at h; cases h
    · rw [hcb] at h
      rcases hps : chunkParts cst ot ps with e | rest
      · rw [hps] at h; cases h
      · rw [hps] at h
        have : cs = cs1 ++ rest := (Except.ok.inj h).symm
        subst this
        intro c hc
        rcases List.mem_append.mp hc with h1 | h2
        · exact chunk_by_char_mem p cst ot cs1 hcb c h1
        · exact ih rest hps c h2

/-- Under the parameter precondition, the per-part accumulation returns
normally. -/
theorem chunkParts_isOk (cst ot : Int) (hc : 0 < cst) (ho : ot < cst) :
    ∀ (parts : List (List Char)), ∃ cs, chunkParts cst ot parts = Except.ok cs := by
  intro parts
  induction parts with
  | nil => exact ⟨[], rfl⟩
  | cons p ps ih =>
    obtain ⟨cs1, h1⟩ := chunk_by_char_isOk p cst ot hc ho
    obtain ⟨rest, h2⟩ := ih
    exact ⟨cs1 ++ rest, by unfold chunkParts; rw [h1, h2]⟩

/-- `split_code_by_defs` returns normally on every input (its fallback uses
the source's default parameters 1000/200, which satisfy the precondition). -/
theorem split_code_by_defs_isOk (text : List Char) (lang : String) :
    ∃ bs, split_code_by_defs text lang = Except.ok bs := by
  by_cases hemp : text.isEmpty
  · exact ⟨[], by unfold split_code_by_defs; rw [if_pos hemp]⟩
  · by_cases hlen : (((splitDefsGo (if lang = "python" then starterPython else starterJs)
        [] (splitOnChar '\n' text)).map
          (fun b => pyStrip (List.intercalate ['\n'] b))).filter
            (fun t => !t.isEmpty)).length ≤ 1
    · obtain ⟨cs0, h0⟩ := chunk_by_char_isOk text 1000 200 (by norm_num) (by norm_num)
      refine ⟨cs0, ?_⟩
      unfold split_code_by_defs
      rw [if_neg hemp]
      dsimp only
      rw [if_pos hlen]
      exact h0
    · refine ⟨(((splitDefsGo (if lang = "python" then starterPython else starterJs)
        [] (splitOnChar '\n' text)).map
          (fun b => pyStrip (List.intercalate ['\n'] b))).filter
            (fun t => !t.isEmpty)), ?_⟩
      unfold split_code_by_defs
      rw [if_neg hemp]
      dsimp only
      rw [if_neg hlen]

/-- Every chunk produced by the file-type dispatch comes out of
`chunk_by_char`, hence is within budget, stripped and non-empty. -/
theorem chunkFileSelect_mem (text fp : List Char) (cst ot : Int)
    (chunks : List (List Char))
    (h : chunkFileSelect text fp cst ot = Except.ok chunks) :
    ∀ c ∈ chunks, (c.length : Int) ≤ cst * 4 ∧ pyStrip c = c ∧ c ≠ [] := by
  unfold chunkFileSelect at h
  by_cases h1 : detect_file_type fp = "markdown"
  · rw [if_pos h1] at h
    exact chunkParts_mem cst ot _ chunks h
  · rw [if_neg h1] at h
    by_cases h2 : detect_file_type fp = "code"
    · rw [if_pos h2] at h
      dsimp only at h
      rcases hsp : split_code_by_defs text
          (if (splitextExt fp).map Char.toLower = ".py".data then "python" else "js") with e | blocks
      · rw [hsp] at h; cases h
      · rw [hsp] at h
        exact chunkParts_mem cst ot blocks chunks h
    · rw [if_neg h2] at h
      by_cases h3 : detect_file_type fp = "notebook"
      · rw [if_pos h3] at h
        exact chunk_by_char_mem text cst ot chunks h
      · rw [if_neg h3] at h
        exact chunk_by_char_mem text cst ot chunks h

/-- Under the parameter precondition the dispatch returns normally on every
file type. -/
theorem chunkFileSelect_isOk (text fp : List Char) (cst ot : Int)
    (hc : 0 < cst) (ho : ot < cst) :
    ∃ chunks, chunkFileSelect text fp cst ot = Except.ok chunks := by
  unfold chunkFileSelect
  by_cases h1 : detect_file_type fp = "markdown"
  · rw [if_pos h1]
    exact chunkParts_isOk cst ot hc ho _
  · rw [if_neg h1]
    by_cases h2 : detect_file_type fp = "code"
    · rw [if_pos h2]
      dsimp only
      obtain ⟨blocks, hsp⟩ := split_code_by_defs_isOk text
        (if (splitextExt fp).map Char.toLower = ".py".data then "python" else "js")
      rw [hsp]
      exact chunkParts_isOk cst ot hc ho blocks
    · rw [if_neg h2]
      by_cases h3 : detect_file_type fp = "notebook"
      · rw [if_pos h3]
        exact chunk_by_char_isOk text cst ot hc ho
      · rw [if_neg h3]
        exact chunk_by_char_isOk text cst ot hc ho

/-- When no chunk is blank (which `chunk_by_char`'s filtering guarantees),
the emission loop skips nothing: the emitted `chunk_index` values are exactly
`i, i+1, ...` in order. -/
theorem emitRecords_map_index (repo fp : List Char) (ft : String) :
    ∀ (chunks : List (List Char)), (∀ c ∈ chunks, ¬(pyStrip c).isEmpty = true) →
      ∀ (i : Nat),
        (emitRecords repo fp ft i chunks).map (fun r => r.chunk_index) =
          List.range' i chunks.length := by
  intro chunks
  induction chunks with
  | nil => intro hall i; rfl
  | cons c cs ih =>
    intro hall i
    have hc : ¬(pyStrip c).isEmpty = true := hall c (List.mem_cons_self c cs)
    have ihcs := ih (fun x hx => hall x (List.mem_cons_of_mem c hx)) (i + 1)
    simp only [emitRecords]
    rw [if_neg hc]
    simp only [List.map_cons, ihcs, List.length_cons, List.range'_succ]

/-- Every emitted record's content is one of the input chunks. -/
theorem emitRecords_content_mem (repo fp : List Char) (ft : String) :
    ∀ (chunks : List (List Char)) (i : Nat) (rec : ChunkRec),
      rec ∈ emitRecords repo fp ft i chunks → rec.content ∈ chunks := by
  intro chunks
  induction chunks with
  | nil => intro i rec h; cases h
  | cons c cs ih =>
    intro i rec h
    simp only [emitRecords] at h
    by_cases hc : (pyStrip c).isEmpty = true
    · rw [if_pos hc] at h
      exact List.mem_cons_of_mem c (ih (i + 1) rec h)
    · rw [if_neg hc] at h
      rcases List.mem_cons.mp h with rfl | hmem
      · exact List.mem_cons_self c cs
      · exact List.mem_cons_of_mem c (ih (i + 1) rec hmem)

/-- C7: the `chunk_index` values of the records emitted by `chunk_file` are
0-based, strictly increasing and gap-free in emission order: they are exactly
`0, 1, ..., len-1`. -/
theorem chunk_file_chunk_index_gapless (content repo fp : List Char) (cst ot : Int)
    (out : List ChunkRec) (h : chunk_file content repo fp cst ot = Except.ok out) :
    out.map (fun r => r.chunk_index) = List.range out.length := by
  unfold chunk_file at h
  rcases hsel : chunkFileSelect (normalize_text content) fp cst ot with e | chunks
  · rw [hsel] at h; cases h
  · rw [hsel] at h
    have hout : out = emitRecords repo fp (detect_file_type fp) 0 chunks :=
      (Except.ok.inj h).symm
    subst hout
    have hall : ∀ c ∈ chunks, ¬(pyStrip c).isEmpty = true := by
      intro c hcmem
      obtain ⟨-, hstrip, hne⟩ := chunkFileSelect_mem _ _ _ _ chunks hsel c hcmem
      rw [hstrip]
      simpa using hne
    have hmap := emitRecords_map_index repo fp (detect_file_type fp) chunks hall 0
    have hlen : (emitRecords repo fp (detect_file_type fp) 0 chunks).length = chunks.length := by
      have := congrArg List.length hmap
      simpa using this
    rw [hmap, hlen, List.range_eq_range']

/-- C10: with `chunk_size_tokens > 0` and `overlap_tokens < chunk_size_tokens`,
`chunk_file` succeeds on every file-type path and every emitted chunk's
content is at most `chunk_size_tokens * 4` characters. -/
theorem chunk_file_within_budget (content repo fp : List Char) (cst ot : Int)
    (hc : 0 < cst) (ho : ot < cst) :
    ∃ out, chunk_file content repo fp cst ot = Except.ok out ∧
      ∀ rec ∈ out, (rec.content.length : Int) ≤ cst * 4 := by
  obtain ⟨chunks, hsel⟩ := chunkFileSelect_isOk (normalize_text content) fp cst ot hc ho
  refine ⟨emitRecords repo fp (detect_file_type fp) 0 chunks, ?_, ?_⟩
  · unfold chunk_file
    rw [hsel]
  · intro rec hrec
    have hmem := emitRecords_content_mem repo fp (detect_file_type fp) chunks 0 rec hrec
    exact (chunkFileSelect_mem _ _ _ _ chunks hsel rec.content hmem).1

/-- C2: with `chunk_size_tokens > 0` and `0 ≤ overlap_tokens <
chunk_size_tokens`, `chunk_by_char` terminates (fuel `len+1` suffices), and
on non-empty text the last window its loop takes is `text[s:]` for some
`s < len ≤ s + chunk_size` — it ends exactly at the end of the text. -/
theorem chunk_by_char_terminates_at_tail (text : List Char) (cst ot : Int)
    (hc : 0 < cst) (ho0 : 0 ≤ ot) (ho : ot < cst) :
    (chunkByCharFuel (text.length + 1) text cst ot).isSome ∧
    (text ≠ [] →
      ∃ (chunks : List (List Char)) (s : Nat),
        chunkLoop text (cst * 4).toNat (ot * 4) (text.length + 1) 0 = some chunks ∧
        s < text.length ∧ text.length ≤ s + (cst * 4).toNat ∧
        chunks.getLast? = some (text.drop s)) := by
  constructor
  · obtain ⟨cs, hok⟩ := chunk_by_char_isOk text cst ot hc ho
    unfold chunk_by_char at hok
    rcases hfu : chunkByCharFuel (text.length + 1) text cst ot with _ | r
    · rw [hfu] at hok
      simp at hok
    · rfl
  · intro hne
    have hprog : (ot * 4 : Int) < (((cst * 4).toNat : Nat) : Int) := by omega
    have h0 : (0 : Int) ≤ ot * 4 := by omega
    have hlen : 0 < text.length := List.length_pos.mpr hne
    exact chunkLoop_last text (cst * 4).toNat (ot * 4) h0 hprog
      (text.length + 1) 0 (by omega) hlen

/-- Witness for `chunk_by_char_terminates_at_tail` at a concrete input. -/
theorem chunk_by_char_terminates_at_tail_witness :
    (0 : Int) < 1 ∧ (0 : Int) ≤ 0 ∧ (0 : Int) < 1 ∧
    ((chunkByCharFuel (['h', 'e', 'l', 'l', 'o'].length + 1)
        ['h', 'e', 'l', 'l', 'o'] 1 0).isSome ∧
     ((['h', 'e', 'l', 'l', 'o'] : List Char) ≠ [] →
      ∃ (chunks : List (List Char)) (s : Nat),
        chunkLoop ['h', 'e', 'l', 'l', 'o'] ((1 : Int) * 4).toNat ((0 : Int) * 4)
          (['h', 'e', 'l', 'l', 'o'].length + 1) 0 = some chunks ∧
        s < ['h', 'e', 'l', 'l', 'o'].length ∧
        ['h', 'e', 'l', 'l', 'o'].length ≤ s + ((1 : Int) * 4).toNat ∧
        chunks.getLast? = some (['h', 'e', 'l', 'l', 'o'].drop s))) :=
  ⟨by decide, by decide, by decide,
   chunk_by_char_terminates_at_tail ['h', 'e', 'l', 'l', 'o'] 1 0
     (by decide) (by decide) (by decide)⟩

/-- Witness for `chunk_file_chunk_index_gapless` at a concrete input. -/
theorem chunk_file_chunk_index_gapless_witness :
    (chunk_file ['h', 'i'] ['r'] ['a', '.', 't', 'x', 't'] 1000 200 =
      Except.ok [⟨['h', 'i'], ['r'], ['a', '.', 't', 'x', 't'], "text", 0⟩]) ∧
    ([(⟨['h', 'i'], ['r'], ['a', '.', 't', 'x', 't'], "text", 0⟩ : ChunkRec)].map
        (fun r => r.chunk_index) =
      List.range [(⟨['h', 'i'], ['r'], ['a', '.', 't', 'x', 't'], "text", 0⟩ : ChunkRec)].length) :=
  ⟨by rfl, chunk_file_chunk_index_gapless ['h', 'i'] ['r'] ['a', '.', 't', 'x', 't']
    1000 200 _ (by rfl)⟩

/-- Witness for `chunk_file_within_budget` at a concrete input. -/
theorem chunk_file_within_budget_witness :
    (0 : Int) < 1000 ∧ (200 : Int) < 1000 ∧
    (∃ out, chunk_file ['h', 'i'] ['r'] ['b', '.', 't', 'x', 't'] 1000 200 = Except.ok out ∧
      ∀ rec ∈ out, (rec.content.length : Int) ≤ 1000 * 4) :=
  ⟨by decide, by decide,
   chunk_file_within_budget ['h', 'i'] ['r'] ['b', '.', 't', 'x', 't'] 1000 200
     (by decide) (by decide)⟩

/-- Witness for `chunk_identity_deterministic` at a concrete input. -/
theorem chunk_identity_deterministic_witness :
    (chunk_file ['h', 'i'] ['r'] ['c', '.', 't', 'x', 't'] 1000 200 =
      Except.ok [⟨['h', 'i'], ['r'], ['c', '.', 't', 'x', 't'], "text", 0⟩]) ∧
    (([(⟨['h', 'i'], ['r'], ['c', '.', 't', 'x', 't'], "text", 0⟩ : ChunkRec)].map
        (fun c => (c.file_path, c.chunk_index)) =
      [(⟨['h', 'i'], ['r'], ['c', '.', 't', 'x', 't'], "text", 0⟩ : ChunkRec)].map
        (fun c => (c.file_path, c.chunk_index))) ∧
     ((prepTriples 0 ([(⟨['h', 'i'], ['r'], ['c', '.', 't', 'x', 't'], "text", 0⟩ : ChunkRec)].map
          chunkRecToJRec)).map (fun t => t.1) =
       (prepTriples 0 ([(⟨['h', 'i'], ['r'], ['c', '.', 't', 'x', 't'], "text", 0⟩ : ChunkRec)].map
          chunkRecToJRec)).map (fun t => t.1)) ∧
     (∀ (idx : Nat) (m : Meta) (r p : List Char) (ci : Int),
       m.repo = some r → m.file_path = some p → m.chunk_index = some ci →
       recordId idx m = r ++ "::".data ++ p ++ "::".data ++ (toString ci).data)) :=
  ⟨by rfl, chunk_identity_deterministic ['h', 'i'] ['r'] ['c', '.', 't', 'x', 't']
    1000 200 _ _ (by rfl) (by rfl)⟩
